import Mathlib

/-!
Verification of the parsing core of the gwynne-care-notes repository.

The development below is a shallow embedding of the function
`parseAndStructure` from `src/app/page.js`.  JavaScript strings are
modelled as lists of characters and JavaScript numbers as exact
rationals extended with NaN and the two infinities (IEEE-754 rounding is
not modelled; the quantities in scope are small decimals for which exact
rational arithmetic agrees with the intended values).  Every regular
expression of the source is translated into a dedicated matcher that
reproduces the JavaScript backtracking search order: greedy quantifiers
commit to the longest run and give characters back one at a time, lazy
quantifiers grow one character at a time, unanchored searches scan start
positions from the left.  The ambient current date read by the source
when the header provides none is passed in as the explicit parameter
`today`.
-/

/-- Character class of the JavaScript whitespace characters: the class
matched by the regular-expression escape for whitespace and stripped by
the trim method. -/
def jsWhitespace (c : Char) : Bool :=
  c = ' ' || c = '\t' || c = '\n' || c = '\r' || c = '\x0b' || c = '\x0c' ||
  c = '\u00A0' || c = '\u1680' || ('\u2000' ≤ c && c ≤ '\u200A') ||
  c = '\u2028' || c = '\u2029' || c = '\u202F' || c = '\u205F' ||
  c = '\u3000' || c = '\uFEFF'

/-- Character class matched by the regular-expression dot: any character
except a line terminator. -/
def jsDotChar (c : Char) : Bool :=
  !(c = '\n' || c = '\r' || c = '\u2028' || c = '\u2029')

/-- The two dash characters accepted by the source as the
description/time separator: hyphen-minus and en dash. -/
def isDash (c : Char) : Bool :=
  c = '-' || c = '–'

/-- Boolean prefix test on character lists. -/
def hasPrefixL : List Char → List Char → Bool
  | [], _ => true
  | _ :: _, [] => false
  | p :: ps, c :: cs => p = c && hasPrefixL ps cs

/-- Boolean substring test, mirroring the includes method of strings. -/
def containsSub : List Char → List Char → Bool
  | [], pat => hasPrefixL pat []
  | c :: cs, pat => hasPrefixL pat (c :: cs) || containsSub cs pat

/-- Splitting on the newline character, mirroring the split method with
a newline separator: splitting the empty string yields one empty piece. -/
def splitNl : List Char → List (List Char)
  | [] => [[]]
  | '\n' :: rest => [] :: splitNl rest
  | c :: rest =>
    match splitNl rest with
    | l :: ls => (c :: l) :: ls
    | [] => [[c]]

/-- Model of the trim method: strip leading and trailing JavaScript
whitespace. -/
def jsTrim (s : List Char) : List Char :=
  List.rdropWhile jsWhitespace (s.dropWhile jsWhitespace)

/-- JavaScript number model: an exact rational extended with NaN and the
two infinities. -/
inductive JsNum where
  | nan : JsNum
  | inf : JsNum
  | negInf : JsNum
  | val : ℚ → JsNum
  deriving DecidableEq, Repr

/-- JavaScript addition on the number model. -/
def jsAdd : JsNum → JsNum → JsNum
  | .nan, _ => .nan
  | _, .nan => .nan
  | .inf, .negInf => .nan
  | .negInf, .inf => .nan
  | .inf, _ => .inf
  | _, .inf => .inf
  | .negInf, _ => .negInf
  | _, .negInf => .negInf
  | .val a, .val b => .val (a + b)

/-- JavaScript multiplication on the number model. -/
def jsMul : JsNum → JsNum → JsNum
  | .nan, _ => .nan
  | _, .nan => .nan
  | .inf, .inf => .inf
  | .inf, .negInf => .negInf
  | .negInf, .inf => .negInf
  | .negInf, .negInf => .inf
  | .inf, .val b => if b = 0 then .nan else if 0 < b then .inf else .negInf
  | .val a, .inf => if a = 0 then .nan else if 0 < a then .inf else .negInf
  | .negInf, .val b => if b = 0 then .nan else if 0 < b then .negInf else .inf
  | .val a, .negInf => if a = 0 then .nan else if 0 < a then .negInf else .inf
  | .val a, .val b => .val (a * b)

/-- JavaScript division on the number model; negative zero is not
modelled, so division by zero of a nonzero value follows the sign of the
dividend. -/
def jsDiv : JsNum → JsNum → JsNum
  | .nan, _ => .nan
  | _, .nan => .nan
  | .inf, .inf => .nan
  | .inf, .negInf => .nan
  | .negInf, .inf => .nan
  | .negInf, .negInf => .nan
  | .inf, .val b => if 0 ≤ b then .inf else .negInf
  | .negInf, .val b => if 0 ≤ b then .negInf else .inf
  | .val _, .inf => .val 0
  | .val _, .negInf => .val 0
  | .val a, .val b =>
    if b = 0 then (if a = 0 then .nan else if 0 < a then .inf else .negInf)
    else .val (a / b)

/-- JavaScript greater-or-equal comparison on the number model; every
comparison with NaN is false. -/
def jsGe : JsNum → JsNum → Bool
  | .nan, _ => false
  | _, .nan => false
  | .inf, _ => true
  | .val _, .inf => false
  | .negInf, .inf => false
  | .negInf, .negInf => true
  | .negInf, .val _ => false
  | .val _, .negInf => true
  | .val a, .val b => decide (b ≤ a)

/-- Numeric value of a list of decimal digit characters; this also
models the parseInt builtin on the digit-run capture group of the
minutes pattern. -/
def digitsToNat (ds : List Char) : ℕ :=
  ds.foldl (fun n c => 10 * n + (c.toNat - 48)) 0

/-- Value of a decimal literal with integer digits `a`, fraction digits
`b` and decimal exponent `e`. -/
def decValue (a b : List Char) (e : ℤ) : ℚ :=
  ((digitsToNat a : ℚ) + (digitsToNat b : ℚ) / (10 : ℚ) ^ b.length) * (10 : ℚ) ^ e

/-- Signed exponent digits after an exponent marker.  An exponent part
with no digits is not part of the literal and contributes zero, which
coincides with the value of the empty digit run. -/
def parseExpSigned (r : List Char) : ℤ :=
  match r with
  | '+' :: r2 => (digitsToNat (r2.takeWhile Char.isDigit) : ℤ)
  | '-' :: r2 => -(digitsToNat (r2.takeWhile Char.isDigit) : ℤ)
  | r1 => (digitsToNat (r1.takeWhile Char.isDigit) : ℤ)

/-- Exponent of a JavaScript decimal literal as read by parseFloat. -/
def parseExp (s : List Char) : ℤ :=
  match s with
  | 'e' :: r => parseExpSigned r
  | 'E' :: r => parseExpSigned r
  | _ => 0

/-- Unsigned part of parseFloat: an Infinity literal or the longest
decimal-literal prefix; NaN when no prefix parses. -/
def parseUnsigned (s : List Char) (neg : Bool) : JsNum :=
  if hasPrefixL "Infinity".toList s then (if neg then .negInf else .inf)
  else
    let a := s.takeWhile Char.isDigit
    let r1 := s.dropWhile Char.isDigit
    match r1 with
    | '.' :: r2 =>
      let b := r2.takeWhile Char.isDigit
      let r3 := r2.dropWhile Char.isDigit
      if a.isEmpty && b.isEmpty then .nan
      else .val (if neg then -(decValue a b (parseExp r3)) else decValue a b (parseExp r3))
    | _ =>
      if a.isEmpty then .nan
      else .val (if neg then -(decValue a [] (parseExp r1)) else decValue a [] (parseExp r1))

/-- Model of the parseFloat builtin: skip leading whitespace, read an
optional sign, then the longest valid decimal-literal prefix. -/
def jsParseFloat (s : List Char) : JsNum :=
  match s.dropWhile jsWhitespace with
  | '+' :: r => parseUnsigned r false
  | '-' :: r => parseUnsigned r true
  | s1 => parseUnsigned s1 false

/-- Full-string match of the date pattern of the header expression: one
or two digits, a slash, one or two digits, a slash, two to four digits. -/
def matchDate (s : List Char) : Bool :=
  match s.dropWhile Char.isDigit with
  | '/' :: r2 =>
    match r2.dropWhile Char.isDigit with
    | '/' :: r4 =>
      decide (r4.dropWhile Char.isDigit = [] ∧
        1 ≤ (s.takeWhile Char.isDigit).length ∧ (s.takeWhile Char.isDigit).length ≤ 2 ∧
        1 ≤ (r2.takeWhile Char.isDigit).length ∧ (r2.takeWhile Char.isDigit).length ≤ 2 ∧
        2 ≤ (r4.takeWhile Char.isDigit).length ∧ (r4.takeWhile Char.isDigit).length ≤ 4)
    | _ => false
  | _ => false

/-- Backtracking search for the header pattern after the first group has
taken the characters in `pre`: the optional whitespace-and-date branch
is tried before the end-of-line branch, and on failure the lazy first
group grows by one non-digit character. -/
def headerGo : List Char → List Char → Option (List Char × Option (List Char))
  | pre, [] => some (pre, none)
  | pre, c :: cs =>
    if (!((c :: cs).takeWhile jsWhitespace).isEmpty) &&
        matchDate ((c :: cs).dropWhile jsWhitespace) then
      some (pre, some ((c :: cs).dropWhile jsWhitespace))
    else if c.isDigit then none
    else headerGo (pre ++ [c]) cs

/-- Model of the header regular expression of the source: a lazy
nonempty group of non-digit characters, an optional group of whitespace
followed by a date token, anchored at both ends.  Returns the two
capture groups. -/
def matchHeader (s : List Char) : Option (List Char × Option (List Char)) :=
  match s with
  | [] => none
  | c :: cs => if c.isDigit then none else headerGo [c] cs

/-- Test for the numbered-marker pattern: one or more digits followed by
a period, anchored at the start of the untrimmed line. -/
def startsNumberDot (line : List Char) : Bool :=
  (!(line.takeWhile Char.isDigit).isEmpty) &&
    match line.dropWhile Char.isDigit with
    | '.' :: _ => true
    | _ => false

/-- Backtracking for the final capture group: the greedy whitespace run
already skipped is held reversed in the first argument and is given back
one character at a time while the greedy nonempty final group fails to
reach the end of the line through dot-matchable characters. -/
def tailGoR : List Char → List Char → Option (List Char)
  | [], rest => if (!rest.isEmpty) && rest.all jsDotChar then some rest else none
  | c :: wrev, rest =>
    if (!rest.isEmpty) && rest.all jsDotChar then some rest
    else tailGoR wrev (c :: rest)

/-- Whitespace then the final capture group, after the dash. -/
def matchTail (u : List Char) : Option (List Char) :=
  tailGoR (u.takeWhile jsWhitespace).reverse (u.dropWhile jsWhitespace)

/-- Whitespace, a dash, then the final capture group.  Only the full
whitespace run can precede the dash, because a dash is not whitespace. -/
def matchDashTail (u : List Char) : Option (List Char) :=
  match u.dropWhile jsWhitespace with
  | c :: rest => if isDash c then matchTail rest else none
  | [] => none

/-- Lazy growth of the description group held in `acc`: after each
extension the separator-and-tail continuation is tried first. -/
def bodyGo : List Char → List Char → Option (List Char × List Char)
  | _, [] => none
  | acc, c :: cs =>
    match matchDashTail (c :: cs) with
    | some g2 => some (acc, g2)
    | none => if jsDotChar c then bodyGo (acc ++ [c]) cs else none

/-- Entry of the lazy description group: it must take at least one
dot-matchable character. -/
def startBody (t : List Char) : Option (List Char × List Char) :=
  match t with
  | [] => none
  | c :: cs => if jsDotChar c then bodyGo [c] cs else none

/-- Greedy whitespace before the description group, held reversed in the
first argument and given back one character at a time on failure. -/
def s0GoR : List Char → List Char → Option (List Char × List Char)
  | [], rest => startBody rest
  | c :: wrev, rest =>
    match startBody rest with
    | some r => some r
    | none => s0GoR wrev (c :: rest)

/-- Model of the activity-line regular expression of the source: marker
digits and a period, greedy whitespace, a lazy nonempty description
group, a dash surrounded by optional whitespace, and a greedy nonempty
time group reaching the end of the line.  Returns the two capture
groups. -/
def matchActivity (line : List Char) : Option (List Char × List Char) :=
  if (line.takeWhile Char.isDigit).isEmpty then none
  else
    match line.dropWhile Char.isDigit with
    | '.' :: t => s0GoR (t.takeWhile jsWhitespace).reverse (t.dropWhile jsWhitespace)
    | _ => none

/-- Full-string test for a purely numeric time token: optional digits,
an optional period, then at least one digit. -/
def isBareNumeric (s : List Char) : Bool :=
  let a := s.takeWhile Char.isDigit
  match s.dropWhile Char.isDigit with
  | [] => !a.isEmpty
  | '.' :: r2 => (!r2.isEmpty) && r2.all Char.isDigit
  | _ => false

/-- Leftmost match of the minutes pattern: a digit run followed by
optional whitespace and the letters of the minutes unit; returns the
digit-run capture group. -/
def findMinMatch : List Char → Option (List Char)
  | [] => none
  | c :: cs =>
    if c.isDigit then
      if hasPrefixL "min".toList
          (((c :: cs).dropWhile Char.isDigit).dropWhile jsWhitespace) then
        some ((c :: cs).takeWhile Char.isDigit)
      else findMinMatch cs
    else findMinMatch cs

/-- Character class of the hours-pattern run: a digit or a period. -/
def digitOrDot (c : Char) : Bool :=
  c.isDigit || c = '.'

/-- Leftmost match of the hours pattern: a run of digits and periods
followed by optional whitespace and the letters of the hours unit;
returns the run capture group. -/
def findHrMatch : List Char → Option (List Char)
  | [] => none
  | c :: cs =>
    if digitOrDot c then
      if hasPrefixL "hr".toList
          (((c :: cs).dropWhile digitOrDot).dropWhile jsWhitespace) then
        some ((c :: cs).takeWhile digitOrDot)
      else findHrMatch cs
    else findHrMatch cs

/-- Resolution of a trimmed time token to minutes, following the ordered
branches of the source: purely numeric tokens use the threshold rule,
then the minutes unit, then the hours unit, then the parseFloat
fallback with the threshold rule; an inner pattern failure leaves the
initial zero. -/
def resolveMinutes (timeStr : List Char) : JsNum :=
  if isBareNumeric timeStr && !containsSub timeStr "min".toList then
    let hours := jsParseFloat timeStr
    if jsGe hours (.val 10) then hours else jsMul hours (.val 60)
  else if containsSub timeStr "min".toList then
    match findMinMatch timeStr with
    | some d => .val (digitsToNat d : ℚ)
    | none => .val 0
  else if containsSub timeStr "hr".toList then
    match findHrMatch timeStr with
    | some d => jsMul (jsParseFloat d) (.val 60)
    | none => .val 0
  else
    let num := jsParseFloat timeStr
    if jsGe num (.val 10) then num else jsMul num (.val 60)

/-- An extracted activity: trimmed description, trimmed raw time token,
resolved minutes. -/
structure Activity where
  description : List Char
  timeStr : List Char
  minutes : JsNum
  deriving DecidableEq, Repr

/-- The structured record returned by the parser. -/
structure StructuredNote where
  clientName : List Char
  date : List Char
  activities : List Activity
  totalHours : List Char
  totalMinutes : JsNum
  deriving DecidableEq, Repr

/-- Per-line activity extraction: the marker test followed by the
two-group match; the minutes resolve from the trimmed second group. -/
def parseLine (line : List Char) : Option Activity :=
  if startsNumberDot line then
    match matchActivity line with
    | some (g1, g2) => some ⟨jsTrim g1, jsTrim g2, resolveMinutes (jsTrim g2)⟩
    | none => none
  else none

/-- Two-digit zero-padded decimal representation of a natural number. -/
def pad2 (n : ℕ) : List Char :=
  if n < 10 then '0' :: Nat.toDigits 10 n else Nat.toDigits 10 n

/-- Model of the toFixed method with two fraction digits on the rational
part of the number model: round to the nearest hundredth, ties toward
the larger value. -/
def ratToFixed2 (q : ℚ) : List Char :=
  let n : ℤ := Int.floor (q * 100 + 1 / 2)
  let m : ℕ := n.natAbs
  (if n < 0 then ['-'] else []) ++ Nat.toDigits 10 (m / 100) ++ '.' :: pad2 (m % 100)

/-- The toFixed method on the number model. -/
def jsToFixed2 : JsNum → List Char
  | .nan => "NaN".toList
  | .inf => "Infinity".toList
  | .negInf => "-Infinity".toList
  | .val q => ratToFixed2 q

/-- The lines of the input: split on newlines, keeping the lines whose
trimmed form is nonempty. -/
def linesOf (text : List Char) : List (List Char) :=
  (splitNl text).filter (fun l => !(jsTrim l).isEmpty)

/-- The header line: the first kept line, or the empty string. -/
def firstLineOf (text : List Char) : List Char :=
  (linesOf text).headD []

/-- Left-fold sum over the number model, mirroring the running total of
the source. -/
def jsSum (l : List JsNum) : JsNum :=
  l.foldl jsAdd (.val 0)

/-- Model of `parseAndStructure` from `src/app/page.js`.  The parameter
`today` stands for the ambient current date rendered by the source when
the header provides no date. -/
def parseAndStructure (today : List Char) (text : List Char) : StructuredNote :=
  let firstLine := firstLineOf text
  let clientName :=
    match matchHeader firstLine with
    | some (g1, _) => jsTrim g1
    | none => "Client".toList
  let date :=
    match matchHeader firstLine with
    | some (_, some d) => if d.isEmpty then today else d
    | some (_, none) => today
    | none => today
  let activities := ((linesOf text).drop 1).filterMap parseLine
  let totalMinutes := activities.foldl (fun t a => jsAdd t a.minutes) (.val 0)
  { clientName := clientName, date := date, activities := activities,
    totalHours := jsToFixed2 (jsDiv totalMinutes (.val 60)),
    totalMinutes := totalMinutes }

/-- The header captured a nonempty date token, so the current-date
fallback is not used. -/
def dateCaptured (text : List Char) : Bool :=
  match matchHeader (firstLineOf text) with
  | some (_, some d) => !d.isEmpty
  | _ => false

set_option maxRecDepth 400000

theorem ne_of_pred {α : Type} {p : α → Bool} {c d : α} (hc : p c = true) (hd : p d = false) :
    c ≠ d := by
  intro e
  subst e
  rw [hc] at hd
  cases hd

theorem ws_not_digit {c : Char} (h : jsWhitespace c = true) : c.isDigit = false := by
  by_contra hd
  have hd' : c.isDigit = true := by simpa using hd
  have h0 : '0' ≤ c ∧ c ≤ '9' := by simpa [Char.isDigit] using hd'
  simp only [jsWhitespace, Bool.or_eq_true, Bool.and_eq_true, decide_eq_true_eq] at h
  rcases h with ((((((((((((((h|h)|h)|h)|h)|h)|h)|h)|h)|h)|h)|h)|h)|h)|h)|h
  all_goals first
    | (subst h; revert h0; decide)
    | (revert h0; decide)
    | (exact absurd (le_trans h.1 h0.2) (by decide))

theorem digit_not_ws {c : Char} (h : c.isDigit = true) : jsWhitespace c = false := by
  cases hw : jsWhitespace c
  · rfl
  · rw [ws_not_digit hw] at h
    cases h

theorem takeWhile_append_all {α : Type} {p : α → Bool} (a b : List α)
    (h : ∀ c ∈ a, p c = true) : (a ++ b).takeWhile p = a ++ b.takeWhile p := by
  induction a with
  | nil => simp
  | cons c a ih =>
    have hc : p c = true := h c (by simp)
    simp only [List.cons_append, List.takeWhile_cons, hc, if_true]
    rw [ih (fun x hx => h x (by simp [hx]))]

theorem dropWhile_append_all {α : Type} {p : α → Bool} (a b : List α)
    (h : ∀ c ∈ a, p c = true) : (a ++ b).dropWhile p = b.dropWhile p := by
  induction a with
  | nil => simp
  | cons c a ih =>
    have hc : p c = true := h c (by simp)
    simp only [List.cons_append, List.dropWhile_cons, hc, if_true]
    exact ih (fun x hx => h x (by simp [hx]))

theorem dropWhile_append_of_ne {α : Type} {p : α → Bool} (a b : List α)
    (h : a.dropWhile p ≠ []) : (a ++ b).dropWhile p = a.dropWhile p ++ b := by
  induction a with
  | nil => simp at h
  | cons c a ih =>
    by_cases hc : p c = true
    · simp only [List.dropWhile_cons, hc, if_true] at h
      simp only [List.cons_append, List.dropWhile_cons, hc, if_true]
      exact ih h
    · replace hc : p c = false := by simpa using hc
      simp [List.dropWhile_cons, hc]

theorem mem_of_mem_dropWhile {α : Type} {p : α → Bool} {c : α} {l : List α}
    (h : c ∈ l.dropWhile p) : c ∈ l := by
  induction l with
  | nil => simp at h
  | cons x l ih =>
    by_cases hx : p x = true
    · simp only [List.dropWhile_cons, hx, if_true] at h
      exact List.mem_cons_of_mem _ (ih h)
    · replace hx : p x = false := by simpa using hx
      rw [List.dropWhile_cons, hx] at h
      simp only [Bool.false_eq_true, if_false] at h
      exact h

theorem dropWhile_head_false {α : Type} {p : α → Bool} {l : List α} {c : α} {cs : List α}
    (h : l.dropWhile p = c :: cs) : p c = false := by
  induction l with
  | nil => simp at h
  | cons x l ih =>
    by_cases hx : p x = true
    · simp only [List.dropWhile_cons, hx, if_true] at h
      exact ih h
    · replace hx : p x = false := by simpa using hx
      rw [List.dropWhile_cons, hx] at h
      simp only [Bool.false_eq_true, if_false] at h
      obtain ⟨rfl, -⟩ := List.cons.inj h
      exact hx

theorem dropWhile_idem {α : Type} {p : α → Bool} (l : List α) :
    (l.dropWhile p).dropWhile p = l.dropWhile p := by
  cases h : l.dropWhile p with
  | nil => simp
  | cons c cs =>
    have hc := dropWhile_head_false h
    simp [List.dropWhile_cons, hc]

theorem rdropWhile_append_all {α : Type} {p : α → Bool} (a w : List α)
    (h : ∀ c ∈ w, p c = true) : List.rdropWhile p (a ++ w) = List.rdropWhile p a := by
  unfold List.rdropWhile
  rw [List.reverse_append, dropWhile_append_all _ _ (by simpa using h)]

theorem rdropWhile_cons_of {α : Type} {p : α → Bool} {c : α} {q : List α}
    (h : p c = false ∨ List.rdropWhile p q ≠ []) :
    List.rdropWhile p (c :: q) = c :: List.rdropWhile p q := by
  by_cases hq : List.rdropWhile p q = []
  · rcases h with h | h
    · have hall : ∀ x ∈ q.reverse, p x = true := fun x hx =>
        List.rdropWhile_eq_nil_iff.mp hq x (by simpa using hx)
      rw [hq]
      show List.reverse (List.dropWhile p (c :: q).reverse) = [c]
      rw [List.reverse_cons, dropWhile_append_all _ _ hall]
      simp [List.dropWhile_cons, h]
    · exact absurd hq h
  · have hinner : q.reverse.dropWhile p ≠ [] := fun hx => hq (by
      show List.reverse (List.dropWhile p q.reverse) = []
      rw [hx]
      rfl)
    show List.reverse (List.dropWhile p (c :: q).reverse) = c :: List.rdropWhile p q
    rw [List.reverse_cons, dropWhile_append_of_ne _ _ hinner, List.reverse_append]
    simp [List.rdropWhile]

theorem rdropWhile_idem {α : Type} {p : α → Bool} (l : List α) :
    List.rdropWhile p (List.rdropWhile p l) = List.rdropWhile p l := by
  unfold List.rdropWhile
  rw [List.reverse_reverse, dropWhile_idem]

theorem hasPrefixL_decomp {pat s : List Char} (h : hasPrefixL pat s = true) :
    ∃ v, s = pat ++ v := by
  induction pat generalizing s with
  | nil => exact ⟨s, rfl⟩
  | cons p ps ih =>
    cases s with
    | nil => simp [hasPrefixL] at h
    | cons c cs =>
      simp only [hasPrefixL, Bool.and_eq_true, decide_eq_true_eq] at h
      obtain ⟨rfl, h2⟩ := h
      obtain ⟨v, rfl⟩ := ih h2
      exact ⟨v, rfl⟩

theorem containsSub_head_mem {s : List Char} {p0 : Char} {ps : List Char}
    (h : containsSub s (p0 :: ps) = true) : p0 ∈ s := by
  induction s with
  | nil => simp [containsSub, hasPrefixL] at h
  | cons c cs ih =>
    simp only [containsSub, Bool.or_eq_true] at h
    rcases h with h | h
    · simp only [hasPrefixL, Bool.and_eq_true, decide_eq_true_eq] at h
      exact h.1 ▸ List.mem_cons_self _ _
    · exact List.mem_cons_of_mem _ (ih h)

theorem isBareNumeric_shape {s : List Char} (h : isBareNumeric s = true) :
    (s ≠ [] ∧ ∀ c ∈ s, c.isDigit = true) ∨
    (∃ a b, s = a ++ '.' :: b ∧ (∀ c ∈ a, c.isDigit = true) ∧ b ≠ [] ∧
      ∀ c ∈ b, c.isDigit = true) := by
  have hsplit := List.takeWhile_append_dropWhile Char.isDigit s
  unfold isBareNumeric at h
  split at h
  next heq =>
    left
    rw [heq, List.append_nil] at hsplit
    have hne : s.takeWhile Char.isDigit ≠ [] := by
      intro hx
      rw [hx] at h
      simp at h
    refine ⟨fun hnil => hne (hsplit.trans hnil), fun c hc => ?_⟩
    rw [← hsplit] at hc
    exact List.mem_takeWhile_imp hc
  next r2 heq =>
    right
    simp only [Bool.and_eq_true, Bool.not_eq_true', List.all_eq_true, decide_eq_true_eq] at h
    refine ⟨s.takeWhile Char.isDigit, r2, ?_, ?_, ?_, ?_⟩
    · rw [heq] at hsplit
      exact hsplit.symm
    · exact fun c hc => List.mem_takeWhile_imp hc
    · intro hx
      rw [hx] at h
      simp at h
    · exact fun c hc => h.2 c hc
  next =>
    exact absurd h (by simp)

theorem bare_chars {s : List Char} (h : isBareNumeric s = true) :
    ∀ c ∈ s, c.isDigit = true ∨ c = '.' := by
  rcases isBareNumeric_shape h with ⟨-, hall⟩ | ⟨a, b, rfl, ha, -, hb⟩
  · exact fun c hc => Or.inl (hall c hc)
  · intro c hc
    simp only [List.mem_append, List.mem_cons] at hc
    rcases hc with hc | hc | hc
    · exact Or.inl (ha c hc)
    · exact Or.inr hc
    · exact Or.inl (hb c hc)

theorem containsSub_eq_false_of_head_not {s : List Char} {p0 : Char} {ps : List Char}
    (h : p0 ∉ s) : containsSub s (p0 :: ps) = false := by
  cases hc : containsSub s (p0 :: ps)
  · rfl
  · exact absurd (containsSub_head_mem hc) h

theorem bare_no_min {s : List Char} (h : isBareNumeric s = true) :
    containsSub s "min".toList = false := by
  have hml : "min".toList = 'm' :: ['i', 'n'] := rfl
  rw [hml]
  refine containsSub_eq_false_of_head_not (fun hm => ?_)
  rcases bare_chars h 'm' hm with hd | hd
  · exact absurd hd (by decide)
  · exact absurd hd (by decide)

theorem bare_no_hr {s : List Char} (h : isBareNumeric s = true) :
    containsSub s "hr".toList = false := by
  have hml : "hr".toList = 'h' :: ['r'] := rfl
  rw [hml]
  refine containsSub_eq_false_of_head_not (fun hm => ?_)
  rcases bare_chars h 'h' hm with hd | hd
  · exact absurd hd (by decide)
  · exact absurd hd (by decide)

theorem decValue_zeroExp (a b : List Char) :
    decValue a b 0 = (digitsToNat a : ℚ) + (digitsToNat b : ℚ) / (10 : ℚ) ^ b.length := by
  unfold decValue
  rw [zpow_zero, mul_one]

theorem decValue_nonneg (a b : List Char) (e : ℤ) : 0 ≤ decValue a b e := by
  unfold decValue
  positivity

theorem parseUnsigned_digits {s : List Char} (hne : s ≠ [])
    (hall : ∀ c ∈ s, c.isDigit = true) :
    parseUnsigned s false = .val (digitsToNat s : ℚ) := by
  obtain ⟨c, cs, rfl⟩ := List.exists_cons_of_ne_nil hne
  have hc := hall c (by simp)
  have hInf : hasPrefixL "Infinity".toList (c :: cs) = false := by
    have hI : ('I' : Char) ≠ c := fun e => by
      rw [← e] at hc
      exact absurd hc (by decide)
    show (decide ('I' = c) && _) = false
    simp [hI]
  have htake : (c :: cs).takeWhile Char.isDigit = c :: cs :=
    List.takeWhile_eq_self_iff.mpr (fun x hx => hall x hx)
  have hdrop : (c :: cs).dropWhile Char.isDigit = [] :=
    List.dropWhile_eq_nil_iff.mpr (fun x hx => hall x hx)
  unfold parseUnsigned
  rw [hInf]
  simp only [Bool.false_eq_true, if_false, htake, hdrop]
  have hpe : parseExp [] = 0 := rfl
  simp only [List.isEmpty_cons, hpe, decValue_zeroExp]
  norm_num [digitsToNat]

theorem parseUnsigned_digits_dot {a b : List Char} (ha : ∀ c ∈ a, c.isDigit = true)
    (hbne : b ≠ []) (hb : ∀ c ∈ b, c.isDigit = true) :
    parseUnsigned (a ++ '.' :: b) false =
      .val ((digitsToNat a : ℚ) + (digitsToNat b : ℚ) / (10 : ℚ) ^ b.length) := by
  have hdotd : ('.' : Char).isDigit = false := by decide
  have hInf : hasPrefixL "Infinity".toList (a ++ '.' :: b) = false := by
    cases a with
    | nil =>
      show (decide ('I' = '.') && _) = false
      simp
    | cons c a' =>
      have hc := ha c (by simp)
      have hI : ('I' : Char) ≠ c := fun e => by
        rw [← e] at hc
        exact absurd hc (by decide)
      show (decide ('I' = c) && _) = false
      simp [hI]
  have htake : (a ++ '.' :: b).takeWhile Char.isDigit = a := by
    rw [takeWhile_append_all _ _ ha, List.takeWhile_cons, hdotd]
    simp
  have hdrop : (a ++ '.' :: b).dropWhile Char.isDigit = '.' :: b := by
    rw [dropWhile_append_all _ _ ha, List.dropWhile_cons, hdotd]
    simp
  have hbtake : b.takeWhile Char.isDigit = b :=
    List.takeWhile_eq_self_iff.mpr (fun x hx => hb x hx)
  have hbdrop : b.dropWhile Char.isDigit = [] :=
    List.dropWhile_eq_nil_iff.mpr (fun x hx => hb x hx)
  have hbempty : b.isEmpty = false := by
    cases b
    · exact absurd rfl hbne
    · rfl
  have hpe : parseExp [] = 0 := rfl
  unfold parseUnsigned
  rw [hInf]
  simp only [Bool.false_eq_true, if_false, htake, hdrop, hbtake, hbdrop, hbempty,
    Bool.and_false, hpe, decValue_zeroExp]

theorem jsParseFloat_no_sign {c : Char} {cs : List Char} (hws : jsWhitespace c = false)
    (hp : c ≠ '+') (hm : c ≠ '-') :
    jsParseFloat (c :: cs) = parseUnsigned (c :: cs) false := by
  unfold jsParseFloat
  have hdws : (c :: cs).dropWhile jsWhitespace = c :: cs := by
    rw [List.dropWhile_cons, hws]
    simp
  rw [hdws]
  split
  next r heq => exact absurd (List.cons.inj heq).1 hp
  next r heq => exact absurd (List.cons.inj heq).1 hm
  next => rfl

theorem jsParseFloat_bare {s : List Char} (h : isBareNumeric s = true) :
    ∃ q : ℚ, 0 ≤ q ∧ jsParseFloat s = .val q := by
  rcases isBareNumeric_shape h with ⟨hne, hall⟩ | ⟨a, b, rfl, ha, hbne, hb⟩
  · obtain ⟨c, cs, rfl⟩ := List.exists_cons_of_ne_nil hne
    have hc := hall c (by simp)
    refine ⟨(digitsToNat (c :: cs) : ℚ), by positivity, ?_⟩
    rw [jsParseFloat_no_sign (digit_not_ws hc) (ne_of_pred hc (by decide))
      (ne_of_pred hc (by decide))]
    exact parseUnsigned_digits (by simp) hall
  · refine ⟨(digitsToNat a : ℚ) + (digitsToNat b : ℚ) / (10 : ℚ) ^ b.length, by positivity, ?_⟩
    cases a with
    | nil =>
      rw [List.nil_append, jsParseFloat_no_sign (by decide) (by decide) (by decide)]
      exact parseUnsigned_digits_dot (fun c hc => absurd hc (List.not_mem_nil c)) hbne hb
    | cons c a' =>
      have hc := ha c (by simp)
      rw [List.cons_append, jsParseFloat_no_sign (digit_not_ws hc) (ne_of_pred hc (by decide))
        (ne_of_pred hc (by decide)), ← List.cons_append]
      exact parseUnsigned_digits_dot ha hbne hb

theorem resolveMinutes_bare {s : List Char} (h : isBareNumeric s = true) :
    ∃ q : ℚ, 0 ≤ q ∧ jsParseFloat s = .val q ∧
      resolveMinutes s = .val (if 10 ≤ q then q else q * 60) := by
  obtain ⟨q, hq0, hpf⟩ := jsParseFloat_bare h
  refine ⟨q, hq0, hpf, ?_⟩
  unfold resolveMinutes
  rw [h, bare_no_min h]
  by_cases h10 : 10 ≤ q
  · simp [hpf, jsGe, h10]
  · simp [hpf, jsGe, h10, jsMul]

theorem parseAndStructure_clientName (today text : List Char) :
    (parseAndStructure today text).clientName =
      (match matchHeader (firstLineOf text) with
       | some (g1, _) => jsTrim g1
       | none => "Client".toList) := rfl

theorem parseAndStructure_date (today text : List Char) :
    (parseAndStructure today text).date =
      (match matchHeader (firstLineOf text) with
       | some (_, some d) => if d.isEmpty then today else d
       | some (_, none) => today
       | none => today) := rfl

theorem parseAndStructure_activities (today text : List Char) :
    (parseAndStructure today text).activities =
      ((linesOf text).drop 1).filterMap parseLine := rfl

theorem parseAndStructure_totalMinutes (today text : List Char) :
    (parseAndStructure today text).totalMinutes =
      (((linesOf text).drop 1).filterMap parseLine).foldl
        (fun t a => jsAdd t a.minutes) (.val 0) := rfl

/-- C1: for every candidate activity line whose time token is purely
numeric, the resolved minutes equal the token value when that value is
at least ten and the value times sixty otherwise; the token text 9.9
resolves to 594 minutes, 10 to 10 minutes and 10.5 to 10.5 minutes. -/
theorem c1_bare_numeric_threshold :
    (∀ ts : List Char, isBareNumeric ts = true →
      ∃ q : ℚ, 0 ≤ q ∧ jsParseFloat ts = .val q ∧
        resolveMinutes ts = .val (if 10 ≤ q then q else q * 60)) ∧
    resolveMinutes "9.9".toList = .val 594 ∧
    resolveMinutes "10".toList = .val 10 ∧
    resolveMinutes "10.5".toList = .val (21 / 2) :=
  ⟨fun _ h => resolveMinutes_bare h, by with_unfolding_all decide,
    by with_unfolding_all decide, by with_unfolding_all decide⟩

/-- C1 witness: the rule evaluated at the concrete purely numeric token 75. -/
theorem c1_bare_numeric_threshold_witness :
    isBareNumeric "75".toList = true ∧
    (∃ q : ℚ, 0 ≤ q ∧ jsParseFloat "75".toList = .val q ∧
      resolveMinutes "75".toList = .val (if 10 ≤ q then q else q * 60)) :=
  ⟨by decide, c1_bare_numeric_threshold.1 "75".toList (by decide)⟩

/-- C2 counterexample: on the line numbered one with description Task
and time token abc, the token parses to no number and the retained
activity has NaN minutes, not zero minutes. -/
theorem c2_zero_minutes_counterexample :
    (parseAndStructure "1/1/25".toList "C\n1. Task - abc".toList).activities =
      [⟨"Task".toList, "abc".toList, .nan⟩] ∧ JsNum.nan ≠ .val 0 := by
  constructor
  · with_unfolding_all decide
  · decide

/-- C2 amended: a candidate line matching both patterns is always
retained as an activity; when no numeric value can be extracted, the
minutes are zero in the minutes-unit and hours-unit branches, but NaN
in the parseFloat fallback branch. -/
theorem c2_unparsed_token :
    (∀ ts : List Char, jsParseFloat ts = .nan → findMinMatch ts = none →
      findHrMatch ts = none →
      resolveMinutes ts =
        (if containsSub ts "min".toList || containsSub ts "hr".toList then .val 0
         else .nan)) ∧
    (∀ line g1 g2, startsNumberDot line = true → matchActivity line = some (g1, g2) →
      parseLine line = some ⟨jsTrim g1, jsTrim g2, resolveMinutes (jsTrim g2)⟩) := by
  constructor
  · intro ts hpf hmin hhr
    have hbare : isBareNumeric ts = false := by
      cases hb : isBareNumeric ts
      · rfl
      · obtain ⟨q, -, hq⟩ := jsParseFloat_bare hb
        rw [hpf] at hq
        cases hq
    unfold resolveMinutes
    rw [hbare]
    by_cases hm : containsSub ts "min".toList = true
    · have hm' : containsSub ts ['m', 'i', 'n'] = true := hm
      simp [hm', hmin]
    · replace hm : containsSub ts "min".toList = false := by simpa using hm
      have hm' : containsSub ts ['m', 'i', 'n'] = false := hm
      by_cases hh : containsSub ts "hr".toList = true
      · have hh' : containsSub ts ['h', 'r'] = true := hh
        simp [hm', hh', hhr]
      · replace hh : containsSub ts "hr".toList = false := by simpa using hh
        have hh' : containsSub ts ['h', 'r'] = false := hh
        simp [hm', hh', hpf, jsGe, jsMul]
  · intro line g1 g2 h1 h2
    simp [parseLine, h1, h2]

/-- C2 witness: the amended rule evaluated at the unparseable token abc. -/
theorem c2_unparsed_token_witness :
    jsParseFloat "abc".toList = .nan ∧ findMinMatch "abc".toList = none ∧
    findHrMatch "abc".toList = none ∧
    resolveMinutes "abc".toList =
      (if containsSub "abc".toList "min".toList || containsSub "abc".toList "hr".toList
       then .val 0 else .nan) :=
  ⟨by decide, by decide, by decide,
    c2_unparsed_token.1 "abc".toList (by decide) (by decide) (by decide)⟩

/-- C7: for every input, the total minutes of the returned record equal
exactly the sum of the minutes of its activities. -/
theorem c7_total_is_sum (today text : List Char) :
    (parseAndStructure today text).totalMinutes =
      jsSum ((parseAndStructure today text).activities.map Activity.minutes) := by
  simp only [parseAndStructure_totalMinutes, parseAndStructure_activities, jsSum,
    List.foldl_map]

/-- C10: a line after the header whose numbered marker is preceded by
any non-digit character, including leading whitespace, fails the
anchored marker test and is silently dropped while later lines are
still processed. -/
theorem c10_marker_anchored :
    (∀ line, startsNumberDot line = false → parseLine line = none) ∧
    (∀ c rest, c.isDigit = false → parseLine (c :: rest) = none) ∧
    (∀ today, (parseAndStructure today "Header\n 1. Task - 5\n2. B - 20".toList).activities =
      [⟨"B".toList, "20".toList, .val 20⟩]) := by
  refine ⟨?_, ?_, ?_⟩
  · intro line h
    simp [parseLine, h]
  · intro c rest h
    have hs : startsNumberDot (c :: rest) = false := by
      unfold startsNumberDot
      rw [List.takeWhile_cons, h]
      simp
    simp [parseLine, hs]
  · intro today
    rw [parseAndStructure_activities]
    with_unfolding_all decide

/-- C10 witness: the concrete line with a leading space before the
marker is dropped. -/
theorem c10_marker_anchored_witness : parseLine (' ' :: "1. Task - 5".toList) = none :=
  c10_marker_anchored.2.1 ' ' "1. Task - 5".toList (by decide)

theorem parseAndStructure_totalHours (today text : List Char) :
    (parseAndStructure today text).totalHours =
      jsToFixed2 (jsDiv
        ((((linesOf text).drop 1).filterMap parseLine).foldl
          (fun t a => jsAdd t a.minutes) (.val 0)) (.val 60)) := rfl

/-- C4: the parse operation is total, returning a structured record for
every input including the empty string, which yields the placeholder
client, the ambient date, no activities and a zero total. -/
theorem c4_parse_total (today text : List Char) :
    (∃ r : StructuredNote, parseAndStructure today text = r) ∧
    parseAndStructure today [] =
      ⟨"Client".toList, today, [], "0.00".toList, .val 0⟩ := by
  refine ⟨⟨_, rfl⟩, ?_⟩
  have h1 : linesOf ([] : List Char) = [] := by decide
  have h2 : matchHeader (firstLineOf ([] : List Char)) = none := by decide
  have h3 : jsToFixed2 (jsDiv (JsNum.val 0) (JsNum.val 60)) = "0.00".toList := by
    with_unfolding_all decide
  have e1 : (parseAndStructure today ([] : List Char)).clientName = "Client".toList := by
    rw [parseAndStructure_clientName, h2]
  have e2 : (parseAndStructure today ([] : List Char)).date = today := by
    rw [parseAndStructure_date, h2]
  have e3 : (parseAndStructure today ([] : List Char)).activities = [] := by
    rw [parseAndStructure_activities, h1]
    rfl
  have e5 : (parseAndStructure today ([] : List Char)).totalMinutes = .val 0 := by
    rw [parseAndStructure_totalMinutes, h1]
    rfl
  have e4 : (parseAndStructure today ([] : List Char)).totalHours = "0.00".toList := by
    rw [parseAndStructure_totalHours, h1]
    exact h3
  have heta : parseAndStructure today ([] : List Char) =
      ⟨(parseAndStructure today ([] : List Char)).clientName,
       (parseAndStructure today ([] : List Char)).date,
       (parseAndStructure today ([] : List Char)).activities,
       (parseAndStructure today ([] : List Char)).totalHours,
       (parseAndStructure today ([] : List Char)).totalMinutes⟩ := rfl
  rw [heta, e1, e2, e3, e4, e5]

/-- C8: when the header captures a date token, the current-date
fallback is unused, so parsing the same text under any two ambient
dates yields identical client name, date and activities. -/
theorem c8_deterministic (t1 t2 text : List Char) (h : dateCaptured text = true) :
    (parseAndStructure t1 text).clientName = (parseAndStructure t2 text).clientName ∧
    (parseAndStructure t1 text).date = (parseAndStructure t2 text).date ∧
    (parseAndStructure t1 text).activities = (parseAndStructure t2 text).activities := by
  unfold dateCaptured at h
  cases hm : matchHeader (firstLineOf text) with
  | none =>
    rw [hm] at h
    simp at h
  | some p =>
    obtain ⟨g, og⟩ := p
    rw [hm] at h
    cases og with
    | none => simp at h
    | some d =>
      have hd : d.isEmpty = false := by simpa using h
      refine ⟨?_, ?_, ?_⟩
      · rw [parseAndStructure_clientName, parseAndStructure_clientName, hm]
      · rw [parseAndStructure_date, parseAndStructure_date, hm]
        simp [hd]
      · rw [parseAndStructure_activities, parseAndStructure_activities]

/-- C8 witness: parsing a dated note under two different ambient dates. -/
theorem c8_deterministic_witness :
    dateCaptured "Susan Johnson 3/15/24\n1. A - 20".toList = true ∧
    ((parseAndStructure "7/7/77".toList "Susan Johnson 3/15/24\n1. A - 20".toList).clientName =
       (parseAndStructure "8/8/88".toList "Susan Johnson 3/15/24\n1. A - 20".toList).clientName ∧
     (parseAndStructure "7/7/77".toList "Susan Johnson 3/15/24\n1. A - 20".toList).date =
       (parseAndStructure "8/8/88".toList "Susan Johnson 3/15/24\n1. A - 20".toList).date ∧
     (parseAndStructure "7/7/77".toList "Susan Johnson 3/15/24\n1. A - 20".toList).activities =
       (parseAndStructure "8/8/88".toList "Susan Johnson 3/15/24\n1. A - 20".toList).activities) :=
  ⟨by decide, c8_deterministic _ _ _ (by decide)⟩

theorem parseUnsigned_false_cases (s : List Char) :
    parseUnsigned s false = .nan ∨ parseUnsigned s false = .inf ∨
    ∃ q : ℚ, parseUnsigned s false = .val q ∧ 0 ≤ q := by
  unfold parseUnsigned
  by_cases hInf : hasPrefixL "Infinity".toList s = true
  · simp only [hInf, if_true]
    right
    left
    rfl
  · replace hInf : hasPrefixL "Infinity".toList s = false := by simpa using hInf
    simp only [hInf, Bool.false_eq_true, if_false]
    split
    · split
      · left
        rfl
      · right
        right
        exact ⟨_, rfl, decValue_nonneg _ _ _⟩
    · split
      · left
        rfl
      · right
        right
        exact ⟨_, rfl, decValue_nonneg _ _ _⟩

theorem jsParseFloat_nonneg_cases {s : List Char}
    (h : (s.dropWhile jsWhitespace).head? ≠ some '-') :
    jsParseFloat s = .nan ∨ jsParseFloat s = .inf ∨
    ∃ q : ℚ, jsParseFloat s = .val q ∧ 0 ≤ q := by
  unfold jsParseFloat
  cases hd : s.dropWhile jsWhitespace with
  | nil => exact parseUnsigned_false_cases []
  | cons c cs =>
    rw [hd] at h
    have hc : c ≠ '-' := by
      intro e
      subst e
      exact h rfl
    split
    next r heq => exact parseUnsigned_false_cases r
    next r heq => exact absurd (List.cons.inj heq).1 hc
    next => exact parseUnsigned_false_cases (c :: cs)

theorem findHrMatch_chars {s d : List Char} (h : findHrMatch s = some d) :
    d ≠ [] ∧ ∀ c ∈ d, digitOrDot c = true := by
  induction s with
  | nil => simp [findHrMatch] at h
  | cons c cs ih =>
    unfold findHrMatch at h
    by_cases hc : digitOrDot c = true
    · simp only [hc, if_true] at h
      split at h
      next hpre =>
        have hd := Option.some.inj h
        subst hd
        refine ⟨?_, fun x hx => List.mem_takeWhile_imp hx⟩
        rw [List.takeWhile_cons, hc]
        simp
      next hpre => exact ih h
    · replace hc : digitOrDot c = false := by simpa using hc
      simp only [hc, Bool.false_eq_true, if_false] at h
      exact ih h

theorem digitOrDot_not_ws {c : Char} (h : digitOrDot c = true) : jsWhitespace c = false := by
  simp only [digitOrDot, Bool.or_eq_true, decide_eq_true_eq] at h
  rcases h with h | h
  · exact digit_not_ws h
  · subst h
    decide

theorem jsGe_val_val (a b : ℚ) : jsGe (.val a) (.val b) = decide (b ≤ a) := rfl

theorem resolveMinutes_min_eq {ts : List Char} (hm : containsSub ts "min".toList = true) :
    resolveMinutes ts =
      (match findMinMatch ts with
       | some d => .val (digitsToNat d : ℚ)
       | none => .val 0) := by
  unfold resolveMinutes
  rw [hm, Bool.not_true, Bool.and_false, if_neg (by simp), if_pos rfl]

theorem resolveMinutes_hr_eq {ts : List Char} (hm : containsSub ts "min".toList = false)
    (hh : containsSub ts "hr".toList = true) :
    resolveMinutes ts =
      (match findHrMatch ts with
       | some d => jsMul (jsParseFloat d) (.val 60)
       | none => .val 0) := by
  have hbare : isBareNumeric ts = false := by
    cases hb : isBareNumeric ts
    · rfl
    · rw [bare_no_hr hb] at hh
      cases hh
  unfold resolveMinutes
  rw [hm, hh, Bool.not_false, Bool.and_true, hbare, if_neg (by simp), if_neg (by simp),
    if_pos rfl]

theorem resolveMinutes_fallback_eq {ts : List Char} (hbare : isBareNumeric ts = false)
    (hm : containsSub ts "min".toList = false) (hh : containsSub ts "hr".toList = false) :
    resolveMinutes ts =
      (if jsGe (jsParseFloat ts) (.val 10) then jsParseFloat ts
       else jsMul (jsParseFloat ts) (.val 60)) := by
  unfold resolveMinutes
  rw [hbare, hm, hh, Bool.false_and, if_neg (by simp), if_neg (by simp), if_neg (by simp)]

theorem resolveMinutes_nonneg {ts : List Char}
    (hneg : (ts.dropWhile jsWhitespace).head? ≠ some '-') :
    resolveMinutes ts = .nan ∨ jsGe (resolveMinutes ts) (.val 0) = true := by
  by_cases hbare : isBareNumeric ts = true
  · obtain ⟨q, hq0, -, hres⟩ := resolveMinutes_bare hbare
    right
    rw [hres, jsGe_val_val]
    by_cases h10 : 10 ≤ q
    · simp only [h10, if_true, decide_eq_true_eq]
      exact hq0
    · simp only [h10, if_false, decide_eq_true_eq]
      exact mul_nonneg hq0 (by norm_num)
  · replace hbare : isBareNumeric ts = false := by simpa using hbare
    by_cases hm : containsSub ts "min".toList = true
    · right
      rw [resolveMinutes_min_eq hm]
      cases hfind : findMinMatch ts with
      | some d =>
        rw [jsGe_val_val, decide_eq_true_eq]
        positivity
      | none =>
        rw [jsGe_val_val]
        decide
    · replace hm : containsSub ts "min".toList = false := by simpa using hm
      by_cases hh : containsSub ts "hr".toList = true
      · rw [resolveMinutes_hr_eq hm hh]
        cases hfind : findHrMatch ts with
        | some d =>
          obtain ⟨hdne, hdchars⟩ := findHrMatch_chars hfind
          obtain ⟨c, cs, rfl⟩ := List.exists_cons_of_ne_nil hdne
          have hc := hdchars c (by simp)
          have hdws : (((c :: cs).dropWhile jsWhitespace).head?) ≠ some '-' := by
            rw [List.dropWhile_cons, digitOrDot_not_ws hc]
            simp only [Bool.false_eq_true, if_false, List.head?_cons]
            intro e
            exact absurd (Option.some.inj e)
              (ne_of_pred hc (show digitOrDot '-' = false by decide))
          have hred : (match some (c :: cs) with
              | some d => jsMul (jsParseFloat d) (JsNum.val 60)
              | none => JsNum.val 0) = jsMul (jsParseFloat (c :: cs)) (JsNum.val 60) := rfl
          rw [hred]
          rcases jsParseFloat_nonneg_cases hdws with hpf | hpf | ⟨q, hpf, hq0⟩
          · left
            rw [hpf]
            rfl
          · right
            rw [hpf]
            rfl
          · right
            rw [hpf]
            show jsGe (.val (q * 60)) (.val 0) = true
            rw [jsGe_val_val, decide_eq_true_eq]
            exact mul_nonneg hq0 (by norm_num)
        | none =>
          right
          rw [jsGe_val_val]
          decide
      · replace hh : containsSub ts "hr".toList = false := by simpa using hh
        rw [resolveMinutes_fallback_eq hbare hm hh]
        rcases jsParseFloat_nonneg_cases hneg with hpf | hpf | ⟨q, hpf, hq0⟩
        · left
          rw [hpf]
          rfl
        · right
          rw [hpf]
          rfl
        · rw [hpf, jsGe_val_val]
          by_cases h10 : 10 ≤ q
          · right
            have hdec : decide (10 ≤ q) = true := by simpa using h10
            rw [hdec, if_pos rfl, jsGe_val_val, decide_eq_true_eq]
            exact hq0
          · right
            have hdec : decide (10 ≤ q) = false := by simpa using h10
            rw [hdec, if_neg (by simp)]
            show jsGe (.val (q * 60)) (.val 0) = true
            rw [jsGe_val_val, decide_eq_true_eq]
            exact mul_nonneg hq0 (by norm_num)

theorem parseLine_shape {line : List Char} {act : Activity} (h : parseLine line = some act) :
    act.minutes = resolveMinutes act.timeStr := by
  unfold parseLine at h
  by_cases hs : startsNumberDot line = true
  · simp only [hs, if_true] at h
    split at h
    next g1 g2 heq =>
      have hd := Option.some.inj h
      subst hd
      rfl
    next => exact absurd h (by simp)
  · replace hs : startsNumberDot line = false := by simpa using hs
    rw [hs] at h
    simp at h

/-- C3 counterexample: on the line numbered one whose dash split leaves
the time token -5, the resolved minutes are -300, a negative number, so
the nonnegativity invariant fails. -/
theorem c3_nonneg_counterexample :
    (parseAndStructure "1/1/25".toList "C\n1. A --5".toList).activities =
      [⟨"A".toList, "-5".toList, .val (-300)⟩] ∧
    jsGe (.val (-300)) (.val 0) = false := by
  constructor
  · with_unfolding_all decide
  · with_unfolding_all decide

/-- C3 amended: every Activity whose trimmed time token does not start
with a minus sign has minutes that are either NaN or at least zero;
tokens starting with a minus sign, reachable through a doubled dash,
can produce negative minutes. -/
theorem c3_minutes_nonneg (today text : List Char) (act : Activity)
    (hmem : act ∈ (parseAndStructure today text).activities)
    (hneg : (act.timeStr.dropWhile jsWhitespace).head? ≠ some '-') :
    act.minutes = .nan ∨ jsGe act.minutes (.val 0) = true := by
  rw [parseAndStructure_activities] at hmem
  obtain ⟨line, -, hline⟩ := List.mem_filterMap.mp hmem
  rw [parseLine_shape hline]
  exact resolveMinutes_nonneg hneg

/-- C3 witness: the nonnegativity conclusion at a concrete parsed
activity with token 20. -/
theorem c3_minutes_nonneg_witness :
    ((⟨"B".toList, "20".toList, .val 20⟩ : Activity) ∈
      (parseAndStructure "1/1/25".toList "C\n1. B - 20".toList).activities) ∧
    (JsNum.val 20 = .nan ∨ jsGe (JsNum.val 20) (.val 0) = true) :=
  ⟨by with_unfolding_all decide,
    c3_minutes_nonneg "1/1/25".toList "C\n1. B - 20".toList
      ⟨"B".toList, "20".toList, .val 20⟩ (by with_unfolding_all decide) (by decide)⟩

theorem findMinMatch_decomp {s d : List Char} (h : findMinMatch s = some d) :
    ∃ u w v, s = u ++ d ++ w ++ "min".toList ++ v ∧ d ≠ [] ∧
      (∀ c ∈ d, c.isDigit = true) ∧ (∀ c ∈ w, jsWhitespace c = true) := by
  induction s with
  | nil => simp [findMinMatch] at h
  | cons c cs ih =>
    unfold findMinMatch at h
    by_cases hc : c.isDigit = true
    · rw [if_pos hc] at h
      split at h
      next hpre =>
        have hd := Option.some.inj h
        subst hd
        obtain ⟨v, hv⟩ := hasPrefixL_decomp hpre
        refine ⟨[], ((c :: cs).dropWhile Char.isDigit).takeWhile jsWhitespace, v, ?_, ?_,
          fun x hx => List.mem_takeWhile_imp hx, fun x hx => List.mem_takeWhile_imp hx⟩
        · have h1 := List.takeWhile_append_dropWhile Char.isDigit (c :: cs)
          have h2 := List.takeWhile_append_dropWhile jsWhitespace
            ((c :: cs).dropWhile Char.isDigit)
          simp only [List.nil_append, List.append_assoc]
          rw [← hv, h2, h1]
        · rw [List.takeWhile_cons, hc]
          simp
      next hpre =>
        obtain ⟨u, w, v, hs, hd, hdall, hw⟩ := ih h
        refine ⟨c :: u, w, v, ?_, hd, hdall, hw⟩
        rw [List.cons_append, hs]
        simp [List.append_assoc]
    · replace hc : c.isDigit = false := by simpa using hc
      rw [if_neg (by simp [hc])] at h
      obtain ⟨u, w, v, hs, hd, hdall, hw⟩ := ih h
      refine ⟨c :: u, w, v, ?_, hd, hdall, hw⟩
      rw [List.cons_append, hs]
      simp [List.append_assoc]

theorem findHrMatch_decomp {s d : List Char} (h : findHrMatch s = some d) :
    ∃ u w v, s = u ++ d ++ w ++ "hr".toList ++ v ∧ d ≠ [] ∧
      (∀ c ∈ d, digitOrDot c = true) ∧ (∀ c ∈ w, jsWhitespace c = true) := by
  induction s with
  | nil => simp [findHrMatch] at h
  | cons c cs ih =>
    unfold findHrMatch at h
    by_cases hc : digitOrDot c = true
    · rw [if_pos hc] at h
      split at h
      next hpre =>
        have hd := Option.some.inj h
        subst hd
        obtain ⟨v, hv⟩ := hasPrefixL_decomp hpre
        refine ⟨[], ((c :: cs).dropWhile digitOrDot).takeWhile jsWhitespace, v, ?_, ?_,
          fun x hx => List.mem_takeWhile_imp hx, fun x hx => List.mem_takeWhile_imp hx⟩
        · have h1 := List.takeWhile_append_dropWhile digitOrDot (c :: cs)
          have h2 := List.takeWhile_append_dropWhile jsWhitespace
            ((c :: cs).dropWhile digitOrDot)
          simp only [List.nil_append, List.append_assoc]
          rw [← hv, h2, h1]
        · rw [List.takeWhile_cons, hc]
          simp
      next hpre =>
        obtain ⟨u, w, v, hs, hd, hdall, hw⟩ := ih h
        refine ⟨c :: u, w, v, ?_, hd, hdall, hw⟩
        rw [List.cons_append, hs]
        simp [List.append_assoc]
    · replace hc : digitOrDot c = false := by simpa using hc
      rw [if_neg (by simp [hc])] at h
      obtain ⟨u, w, v, hs, hd, hdall, hw⟩ := ih h
      refine ⟨c :: u, w, v, ?_, hd, hdall, hw⟩
      rw [List.cons_append, hs]
      simp [List.append_assoc]

/-- C6 counterexample: for the time token that reads 7 then 45 min, the
token's leading integer run is 7 but the resolved minutes are 45, the
digits of the first run standing directly before the minutes unit. -/
theorem c6_leading_run_counterexample :
    (parseAndStructure "1/1/25".toList "C\n1. Task - 7 then 45 min".toList).activities =
      [⟨"Task".toList, "7 then 45 min".toList, .val 45⟩] ∧
    "7 then 45 min".toList.takeWhile Char.isDigit = ['7'] ∧
    JsNum.val 45 ≠ .val (digitsToNat ['7'] : ℚ) := by
  refine ⟨?_, ?_, ?_⟩
  · with_unfolding_all decide
  · decide
  · with_unfolding_all decide

/-- C6 amended: for a non-numeric token containing the minutes unit, the
minutes equal the value of the leftmost digit run that is followed by
optional whitespace and the minutes unit, not necessarily the token's
leading run, and zero when no such run exists; likewise with the hours
unit, whose run value parses as a decimal and is multiplied by sixty;
the unit-suffixed examples resolve as stated. -/
theorem c6_unit_tokens :
    (∀ ts d, containsSub ts "min".toList = true → findMinMatch ts = some d →
      resolveMinutes ts = .val (digitsToNat d : ℚ) ∧
      ∃ u w v, ts = u ++ d ++ w ++ "min".toList ++ v ∧ d ≠ [] ∧
        (∀ c ∈ d, c.isDigit = true) ∧ (∀ c ∈ w, jsWhitespace c = true)) ∧
    (∀ ts, containsSub ts "min".toList = true → findMinMatch ts = none →
      resolveMinutes ts = .val 0) ∧
    (∀ ts d, containsSub ts "min".toList = false → containsSub ts "hr".toList = true →
      findHrMatch ts = some d →
      resolveMinutes ts = jsMul (jsParseFloat d) (.val 60) ∧
      ∃ u w v, ts = u ++ d ++ w ++ "hr".toList ++ v ∧ d ≠ [] ∧
        (∀ c ∈ d, digitOrDot c = true) ∧ (∀ c ∈ w, jsWhitespace c = true)) ∧
    resolveMinutes "45 min".toList = .val 45 ∧
    resolveMinutes "1.5 hrs".toList = .val 90 ∧
    resolveMinutes "90 mins".toList = .val 90 := by
  refine ⟨?_, ?_, ?_, ?_, ?_, ?_⟩
  · intro ts d hm hf
    refine ⟨?_, findMinMatch_decomp hf⟩
    rw [resolveMinutes_min_eq hm, hf]
  · intro ts hm hf
    rw [resolveMinutes_min_eq hm, hf]
  · intro ts d hm hh hf
    refine ⟨?_, findHrMatch_decomp hf⟩
    rw [resolveMinutes_hr_eq hm hh, hf]
  · with_unfolding_all decide
  · with_unfolding_all decide
  · with_unfolding_all decide

/-- C6 witness: the minutes rule at the concrete token 45 min. -/
theorem c6_unit_tokens_witness :
    containsSub "45 min".toList "min".toList = true ∧
    findMinMatch "45 min".toList = some ['4', '5'] ∧
    (resolveMinutes "45 min".toList = .val (digitsToNat ['4', '5'] : ℚ) ∧
      ∃ u w v, "45 min".toList = u ++ ['4', '5'] ++ w ++ "min".toList ++ v ∧
        ['4', '5'] ≠ [] ∧ (∀ c ∈ ['4', '5'], c.isDigit = true) ∧
        (∀ c ∈ w, jsWhitespace c = true)) :=
  ⟨by decide, by decide,
    c6_unit_tokens.1 "45 min".toList ['4', '5'] (by decide) (by decide)⟩

theorem matchDate_head {d : List Char} (h : matchDate d = true) :
    ∃ c cs, d = c :: cs ∧ c.isDigit = true := by
  unfold matchDate at h
  split at h
  next r2 heq =>
    split at h
    next r4 heq2 =>
      simp only [decide_eq_true_eq] at h
      obtain ⟨-, h1, -⟩ := h
      cases d with
      | nil => simp at h1
      | cons c cs =>
        refine ⟨c, cs, rfl, ?_⟩
        by_cases hc : c.isDigit = true
        · exact hc
        · exfalso
          replace hc : c.isDigit = false := by simpa using hc
          rw [List.takeWhile_cons, hc] at h1
          simp at h1
    next => exact absurd h (by simp)
  next => exact absurd h (by simp)

theorem jsTrim_append_ws {x w : List Char} (hw : ∀ c ∈ w, jsWhitespace c = true) :
    jsTrim (x ++ w) = jsTrim x := by
  unfold jsTrim
  by_cases hx : x.dropWhile jsWhitespace = []
  · have hx' : ∀ c ∈ x, jsWhitespace c = true := List.dropWhile_eq_nil_iff.mp hx
    rw [hx, dropWhile_append_all _ _ hx',
      List.dropWhile_eq_nil_iff.mpr (fun c hc => hw c hc)]
  · rw [dropWhile_append_of_ne _ _ hx, rdropWhile_append_all _ _ hw]

theorem headerGo_spec : ∀ (rest pre g : List Char) (og : Option (List Char)),
    headerGo pre rest = some (g, og) →
    ∃ mid tail, g = pre ++ mid ∧ rest = mid ++ tail ∧ (∀ c ∈ mid, c.isDigit = false) ∧
      ((og = none ∧ tail = []) ∨
       (∃ d, og = some d ∧ matchDate d = true ∧ d = tail.dropWhile jsWhitespace ∧
         tail.takeWhile jsWhitespace ≠ [])) := by
  intro rest
  induction rest with
  | nil =>
    intro pre g og h
    unfold headerGo at h
    have h2 := Option.some.inj h
    rw [Prod.mk.injEq] at h2
    obtain ⟨rfl, rfl⟩ := h2
    exact ⟨[], [], by simp, rfl, by simp, Or.inl ⟨rfl, rfl⟩⟩
  | cons c cs ih =>
    intro pre g og h
    unfold headerGo at h
    by_cases hA : ((!((c :: cs).takeWhile jsWhitespace).isEmpty) &&
        matchDate ((c :: cs).dropWhile jsWhitespace)) = true
    · rw [if_pos hA] at h
      have h2 := Option.some.inj h
      rw [Prod.mk.injEq] at h2
      obtain ⟨rfl, rfl⟩ := h2
      simp only [Bool.and_eq_true, Bool.not_eq_true'] at hA
      refine ⟨[], c :: cs, by simp, by simp, by simp, Or.inr ⟨_, rfl, hA.2, rfl, ?_⟩⟩
      intro hx
      rw [hx] at hA
      simpa using hA.1
    · rw [if_neg hA] at h
      by_cases hc : c.isDigit = true
      · rw [if_pos hc] at h
        simp at h
      · replace hc : c.isDigit = false := by simpa using hc
        rw [if_neg (by simp [hc])] at h
        obtain ⟨mid, tail, hg, hcs, hmid, hor⟩ := ih (pre ++ [c]) g og h
        refine ⟨c :: mid, tail, ?_, ?_, ?_, hor⟩
        · rw [hg]
          simp
        · rw [List.cons_append, hcs]
        · intro x hx
          rcases List.mem_cons.mp hx with rfl | hx
          · exact hc
          · exact hmid x hx

theorem matchHeader_group1 {s g : List Char} {og : Option (List Char)}
    (h : matchHeader s = some (g, og)) :
    jsTrim g = jsTrim (s.takeWhile (fun c => !c.isDigit)) := by
  cases s with
  | nil => simp [matchHeader] at h
  | cons c cs =>
    unfold matchHeader at h
    replace h : (if c.isDigit = true then none else headerGo [c] cs) = some (g, og) := h
    by_cases hc : c.isDigit = true
    · rw [if_pos hc] at h
      simp at h
    · replace hc : c.isDigit = false := by simpa using hc
      rw [if_neg (by simp [hc])] at h
      obtain ⟨mid, tail, rfl, hcs, hmid, hor⟩ := headerGo_spec cs [c] g og h
      have hgall : ∀ x ∈ [c] ++ mid, (!x.isDigit) = true := by
        intro x hx
        rcases List.mem_append.mp hx with hx | hx
        · simp only [List.mem_singleton] at hx
          subst hx
          simp [hc]
        · simp [hmid x hx]
      have hs : c :: cs = ([c] ++ mid) ++ tail := by
        rw [hcs]
        simp
      rcases hor with ⟨-, rfl⟩ | ⟨d, -, hdate, hdropd, htw⟩
      · rw [hs, List.append_nil, List.takeWhile_eq_self_iff.mpr hgall]
      · have htsplit := List.takeWhile_append_dropWhile jsWhitespace tail
        obtain ⟨cd, cds, hdeq, hcd⟩ := matchDate_head hdate
        have htw_all : ∀ x ∈ tail.takeWhile jsWhitespace, (!x.isDigit) = true := by
          intro x hx
          simp [ws_not_digit (List.mem_takeWhile_imp hx)]
        have htail_take : tail.takeWhile (fun c => !c.isDigit) = tail.takeWhile jsWhitespace := by
          conv_lhs => rw [← htsplit]
          rw [takeWhile_append_all _ _ htw_all, ← hdropd, hdeq, List.takeWhile_cons]
          simp [hcd]
        rw [hs, takeWhile_append_all _ _ hgall, htail_take,
          jsTrim_append_ws (fun x hx => List.mem_takeWhile_imp hx)]

/-- C5 counterexample: on the first line consisting of two spaces and a
date, the header pattern matches with an all-whitespace first group, so
the client name is the empty string, not a non-empty one. -/
theorem c5_nonempty_counterexample :
    (parseAndStructure "1/1/25".toList "  12/3/24".toList).clientName = [] := by
  decide

/-- C5 amended: when the header pattern matches, the client name is the
trimmed non-digit prefix of the first kept line, which may be empty when
that prefix is all whitespace; when the pattern fails, the client name
is exactly the placeholder and the date falls back to the ambient date. -/
theorem c5_clientName (today text : List Char) :
    (matchHeader (firstLineOf text) = none →
      (parseAndStructure today text).clientName = "Client".toList ∧
      (parseAndStructure today text).date = today) ∧
    (∀ g og, matchHeader (firstLineOf text) = some (g, og) →
      (parseAndStructure today text).clientName =
        jsTrim ((firstLineOf text).takeWhile (fun c => !c.isDigit))) := by
  constructor
  · intro h
    rw [parseAndStructure_clientName, parseAndStructure_date, h]
    exact ⟨rfl, rfl⟩
  · intro g og h
    rw [parseAndStructure_clientName, h]
    exact matchHeader_group1 h

/-- C5 witness: the client name of a dated header line equals the
trimmed non-digit prefix of that line. -/
theorem c5_clientName_witness :
    matchHeader (firstLineOf "Susan Johnson 3/15/24".toList) =
      some ("Susan Johnson".toList, some "3/15/24".toList) ∧
    (parseAndStructure "1/1/25".toList "Susan Johnson 3/15/24".toList).clientName =
      jsTrim ((firstLineOf "Susan Johnson 3/15/24".toList).takeWhile (fun c => !c.isDigit)) :=
  ⟨by decide,
    (c5_clientName "1/1/25".toList "Susan Johnson 3/15/24".toList).2 "Susan Johnson".toList
      (some "3/15/24".toList) (by decide)⟩

theorem dash_not_ws {c : Char} (h : isDash c = true) : jsWhitespace c = false := by
  simp only [isDash, Bool.or_eq_true, decide_eq_true_eq] at h
  rcases h with rfl | rfl <;> decide

theorem exists_dash_dropWhile_ne {v : List Char} (h : ∃ c ∈ v, isDash c = true) :
    v.dropWhile jsWhitespace ≠ [] := by
  intro hx
  obtain ⟨c, hc, hdc⟩ := h
  have hws := List.dropWhile_eq_nil_iff.mp hx c hc
  rw [dash_not_ws hdc] at hws
  cases hws

theorem tailGoR_pos (wrev rest : List Char) (h1 : rest.isEmpty = false)
    (h2 : rest.all jsDotChar = true) : tailGoR wrev rest = some rest := by
  cases wrev with
  | nil =>
    unfold tailGoR
    simp [h1, h2]
  | cons c w =>
    unfold tailGoR
    simp [h1, h2]

theorem matchTail_pos {v : List Char} (hne : v.dropWhile jsWhitespace ≠ [])
    (hall : ∀ c ∈ v, jsDotChar c = true) :
    matchTail v = some (v.dropWhile jsWhitespace) := by
  unfold matchTail
  apply tailGoR_pos
  · cases hd : v.dropWhile jsWhitespace with
    | nil => exact absurd hd hne
    | cons a as => rfl
  · rw [List.all_eq_true]
    exact fun c hc => hall c (mem_of_mem_dropWhile hc)

theorem matchDashTail_ws_dash (q : List Char) {v : List Char} {d1 : Char}
    (hq : ∀ c ∈ q, jsWhitespace c = true) (hd : isDash d1 = true)
    (hvne : v.dropWhile jsWhitespace ≠ []) (hv : ∀ c ∈ v, jsDotChar c = true) :
    matchDashTail (q ++ d1 :: v) = some (v.dropWhile jsWhitespace) := by
  unfold matchDashTail
  rw [dropWhile_append_all _ _ hq, List.dropWhile_cons, dash_not_ws hd]
  simp only [Bool.false_eq_true, if_false]
  show (if isDash d1 then matchTail v else none) = _
  rw [if_pos hd, matchTail_pos hvne hv]

theorem matchDashTail_none (q rest2 : List Char)
    (hne : q.dropWhile jsWhitespace ≠ []) (hnd : ∀ c ∈ q, isDash c = false) :
    matchDashTail (q ++ rest2) = none := by
  unfold matchDashTail
  rw [dropWhile_append_of_ne _ _ hne]
  obtain ⟨c0, q0, hq0⟩ := List.exists_cons_of_ne_nil hne
  rw [hq0, List.cons_append]
  have hc0q : c0 ∈ q := @mem_of_mem_dropWhile _ _ _ q
    (by rw [hq0]; exact List.mem_cons_self _ _)
  show (if isDash c0 then matchTail (q0 ++ rest2) else none) = none
  rw [hnd c0 hc0q]
  simp

theorem bodyGo_cons_eq (acc : List Char) (c : Char) (cs : List Char) :
    bodyGo acc (c :: cs) =
      (match matchDashTail (c :: cs) with
       | some g2 => some (acc, g2)
       | none => if jsDotChar c then bodyGo (acc ++ [c]) cs else none) := rfl

theorem bodyGo_cons_some {acc g2 : List Char} {c : Char} {cs : List Char}
    (h : matchDashTail (c :: cs) = some g2) : bodyGo acc (c :: cs) = some (acc, g2) := by
  rw [bodyGo_cons_eq, h]

theorem bodyGo_cons_none {acc : List Char} {c : Char} {cs : List Char}
    (h : matchDashTail (c :: cs) = none) :
    bodyGo acc (c :: cs) = (if jsDotChar c then bodyGo (acc ++ [c]) cs else none) := by
  rw [bodyGo_cons_eq, h]

theorem bodyGo_split : ∀ (q p v : List Char) (d1 : Char),
    (∀ c ∈ q, jsDotChar c = true) → (∀ c ∈ q, isDash c = false) →
    isDash d1 = true → (∀ c ∈ v, jsDotChar c = true) →
    v.dropWhile jsWhitespace ≠ [] →
    bodyGo p (q ++ d1 :: v) =
      some (p ++ List.rdropWhile jsWhitespace q, v.dropWhile jsWhitespace) := by
  intro q
  induction q with
  | nil =>
    intro p v d1 _ _ hd hv hvne
    have hmd := matchDashTail_ws_dash []
      (fun c hc => absurd hc (List.not_mem_nil c)) hd hvne hv
    rw [List.nil_append] at hmd
    rw [List.nil_append, bodyGo_cons_some hmd]
    simp [List.rdropWhile_nil]
  | cons c q' ih =>
    intro p v d1 hdot hnd hd hv hvne
    by_cases hall : ∀ x ∈ c :: q', jsWhitespace x = true
    · have hmd := matchDashTail_ws_dash (c :: q') hall hd hvne hv
      rw [List.cons_append] at hmd
      rw [List.cons_append, bodyGo_cons_some hmd,
        List.rdropWhile_eq_nil_iff.mpr hall, List.append_nil]
    · have hne : (c :: q').dropWhile jsWhitespace ≠ [] := by
        intro hx
        exact hall (fun x hx2 => List.dropWhile_eq_nil_iff.mp hx x hx2)
      have hmd := matchDashTail_none (c :: q') (d1 :: v) hne hnd
      rw [List.cons_append] at hmd
      rw [List.cons_append, bodyGo_cons_none hmd,
        if_pos (hdot c (List.mem_cons_self _ _)),
        ih (p ++ [c]) v d1 (fun x hx => hdot x (List.mem_cons_of_mem _ hx))
          (fun x hx => hnd x (List.mem_cons_of_mem _ hx)) hd hv hvne]
      have hcons : List.rdropWhile jsWhitespace (c :: q') =
          c :: List.rdropWhile jsWhitespace q' := by
        apply rdropWhile_cons_of
        by_cases hwc : jsWhitespace c = true
        · right
          intro hx
          apply hall
          intro x hx2
          rcases List.mem_cons.mp hx2 with rfl | hx2
          · exact hwc
          · exact List.rdropWhile_eq_nil_iff.mp hx x hx2
        · left
          simpa using hwc
      rw [hcons]
      simp [List.append_assoc]

theorem s0GoR_pos {rest : List Char} {r : List Char × List Char}
    (h : startBody rest = some r) : ∀ wrev, s0GoR wrev rest = some r := by
  intro wrev
  cases wrev with
  | nil => exact h
  | cons c w =>
    have he : s0GoR (c :: w) rest =
        (match startBody rest with
         | some r => some r
         | none => s0GoR w (c :: rest)) := rfl
    rw [he, h]

theorem jsTrim_dropWhile (v : List Char) :
    jsTrim (v.dropWhile jsWhitespace) = jsTrim v := by
  unfold jsTrim
  rw [dropWhile_idem]

theorem jsTrim_idem (u : List Char) : jsTrim (jsTrim u) = jsTrim u := by
  unfold jsTrim
  cases hy : u.dropWhile jsWhitespace with
  | nil => simp [List.rdropWhile_nil]
  | cons c ys =>
    have hcws : jsWhitespace c = false := dropWhile_head_false hy
    cases hr : List.rdropWhile jsWhitespace (c :: ys) with
    | nil => simp [List.rdropWhile_nil]
    | cons d ds =>
      have hpre := List.rdropWhile_prefix jsWhitespace (c :: ys)
      rw [hr] at hpre
      obtain ⟨t, ht⟩ := hpre
      have hdc : d = c := (List.cons.inj ht).1
      subst hdc
      rw [List.dropWhile_cons, hcws]
      simp only [Bool.false_eq_true, if_false]
      rw [← hr, rdropWhile_idem]

/-- C9 counterexample: in the line with a carriage return inside it, the
split does not occur at the first dash: the description absorbs the
first dash and the time token comes from the second, while the trimmed
text before the first dash is the single letter a. -/
theorem c9_first_dash_counterexample :
    parseLine "1. a - x\r - 5".toList =
      some ⟨"a - x".toList, "5".toList, .val 300⟩ ∧
    jsTrim " a ".toList = "a".toList ∧
    ("a - x".toList : List Char) ≠ "a".toList := by
  refine ⟨?_, ?_, ?_⟩
  · with_unfolding_all decide
  · decide
  · decide

/-- C9 amended: for a numbered line whose post-marker text splits as a
dash-free segment, a dash, and a remainder that contains another dash,
where every character is dot-matchable (no carriage returns or line
separators) and the segment before the dash has non-whitespace content,
the split happens at that first dash: the description is the trimmed
text before it and the time token is the whole trimmed remainder,
later dashes included, resolved by the ordered rule. -/
theorem c9_first_dash_split (ds u v : List Char) (d1 : Char)
    (hds : ds ≠ []) (hdsall : ∀ c ∈ ds, c.isDigit = true) (hd : isDash d1 = true)
    (hu : ∀ c ∈ u, jsDotChar c = true) (hund : ∀ c ∈ u, isDash c = false)
    (hutrim : jsTrim u ≠ []) (hv : ∀ c ∈ v, jsDotChar c = true)
    (hdash : ∃ c ∈ v, isDash c = true) :
    parseLine (ds ++ '.' :: (u ++ d1 :: v)) =
      some ⟨jsTrim u, jsTrim v, resolveMinutes (jsTrim v)⟩ := by
  have hvne : v.dropWhile jsWhitespace ≠ [] := exists_dash_dropWhile_ne hdash
  have hu' : u.dropWhile jsWhitespace ≠ [] := by
    intro hx
    apply hutrim
    unfold jsTrim
    rw [hx]
    simp [List.rdropWhile_nil]
  obtain ⟨c0, u'', hc0⟩ := List.exists_cons_of_ne_nil hu'
  have hc0ws : jsWhitespace c0 = false := dropWhile_head_false hc0
  have hc0mem : c0 ∈ u := @mem_of_mem_dropWhile _ _ _ u
    (by rw [hc0]; exact List.mem_cons_self _ _)
  have hu''mem : ∀ x ∈ u'', x ∈ u := fun x hx =>
    @mem_of_mem_dropWhile _ _ _ u (by rw [hc0]; exact List.mem_cons_of_mem _ hx)
  have hdotdig : ('.' : Char).isDigit = false := by decide
  have htk : (ds ++ '.' :: (u ++ d1 :: v)).takeWhile Char.isDigit = ds := by
    rw [takeWhile_append_all _ _ hdsall, List.takeWhile_cons, hdotdig]
    simp
  have hdp : (ds ++ '.' :: (u ++ d1 :: v)).dropWhile Char.isDigit =
      '.' :: (u ++ d1 :: v) := by
    rw [dropWhile_append_all _ _ hdsall, List.dropWhile_cons, hdotdig]
    simp
  have hdse : ds.isEmpty = false := by
    cases ds
    · exact absurd rfl hds
    · rfl
  have hstart : startsNumberDot (ds ++ '.' :: (u ++ d1 :: v)) = true := by
    unfold startsNumberDot
    rw [htk, hdp, hdse]
    rfl
  have hdt : (u ++ d1 :: v).dropWhile jsWhitespace = c0 :: (u'' ++ d1 :: v) := by
    rw [dropWhile_append_of_ne _ _ hu', hc0, List.cons_append]
  have hjt : jsTrim u = c0 :: List.rdropWhile jsWhitespace u'' := by
    unfold jsTrim
    rw [hc0]
    exact rdropWhile_cons_of (Or.inl hc0ws)
  have hsb : startBody ((u ++ d1 :: v).dropWhile jsWhitespace) =
      some (jsTrim u, v.dropWhile jsWhitespace) := by
    rw [hdt]
    have he : startBody (c0 :: (u'' ++ d1 :: v)) =
        (if jsDotChar c0 then bodyGo [c0] (u'' ++ d1 :: v) else none) := rfl
    rw [he, if_pos (hu c0 hc0mem),
      bodyGo_split u'' [c0] v d1 (fun x hx => hu x (hu''mem x hx))
        (fun x hx => hund x (hu''mem x hx)) hd hv hvne, hjt]
    rfl
  have hma : matchActivity (ds ++ '.' :: (u ++ d1 :: v)) =
      some (jsTrim u, v.dropWhile jsWhitespace) := by
    unfold matchActivity
    rw [htk, hdse, hdp]
    simp only [Bool.false_eq_true, if_false]
    show s0GoR ((u ++ d1 :: v).takeWhile jsWhitespace).reverse
      ((u ++ d1 :: v).dropWhile jsWhitespace) = _
    exact s0GoR_pos hsb _
  unfold parseLine
  rw [if_pos hstart, hma]
  show some (⟨jsTrim (jsTrim u), jsTrim (v.dropWhile jsWhitespace),
    resolveMinutes (jsTrim (v.dropWhile jsWhitespace))⟩ : Activity) = _
  rw [jsTrim_idem, jsTrim_dropWhile]

/-- C9 witness: the first-dash split on the hospital-visit line, whose
remainder contains a second dash. -/
theorem c9_first_dash_split_witness :
    jsTrim " Hospital visit ".toList = "Hospital visit".toList ∧
    jsTrim " reviewed discharge planning - 90".toList =
      "reviewed discharge planning - 90".toList ∧
    parseLine ("1".toList ++ '.' :: (" Hospital visit ".toList ++ '-' ::
        " reviewed discharge planning - 90".toList)) =
      some ⟨jsTrim " Hospital visit ".toList,
        jsTrim " reviewed discharge planning - 90".toList,
        resolveMinutes (jsTrim " reviewed discharge planning - 90".toList)⟩ :=
  ⟨by decide, by decide,
    c9_first_dash_split "1".toList " Hospital visit ".toList
      " reviewed discharge planning - 90".toList '-' (by decide) (by decide) (by decide)
      (by decide) (by decide) (by decide) (by decide) (by decide)⟩
